import Mathlib

/-!
# Shallow embedding of `shoten/shoten.py`

This file embeds the vocabulary-aggregation and time-binned statistics engine
of the `shoten` package and proves properties of the embedded functions.

Modelling conventions:
* Python `dict` (insertion-ordered, unique keys) is modelled as an association
  list `List (String × Entry)`; theorems that need key uniqueness take a
  `Nodup` hypothesis on the keys.
* Python ints are `Int` (day-offsets can be negative for future dates);
  Python floats are modelled as exact rationals `ℚ`, and `numpy`'s square
  root is an abstract parameter `sqrtFn` where it occurs.
* `collections.Counter` multisets of source strings are modelled as the list
  of occurrences (`List String`): summing two Counters corresponds to list
  concatenation, and a Counter lookup corresponds to `List.count`.
* `numpy` arrays are modelled as plain lists; converting to/from arrays is the
  identity in the model.
* Dictionary access on an absent key (`KeyError` in Python) is totalised to a
  default `Entry`; theorems about lookups carry the membership hypotheses the
  running code guarantees.
* The constants `ARRAY_TYPE` / `MAX_SERIES_VAL` live in `shoten/datatypes.py`,
  which is not part of the sources at hand; the spec only says bin counts are
  capped at a configured maximum, so the cap is a parameter `maxVal` here.
-/

namespace Shoten

/-- Per-word aggregate state. Modelled from the spec: `shoten/datatypes.py`
is not among the sources, and §3 of the spec lists these fields:
`time_series` day-offsets, `sources` multiset, `headings` flag, and the
statistics fields populated by the calculator. -/
structure Entry where
  time_series : List Int := []
  sources : List String := []
  headings : Bool := false
  total : ℚ := 0
  series_abs : List Nat := []
  series_rel : List ℚ := []
  mean : ℚ := 0
  stddev : ℚ := 0
  deriving Repr, DecidableEq

/-- A Python dict from word-form to `Entry`, as an insertion-ordered
association list. -/
abbrev Vocab := List (String × Entry)

/-- Membership test for a key, `wordform in myvocab` in Python. -/
def hasKey (v : Vocab) (w : String) : Bool :=
  v.any (fun p => p.1 == w)

/-- Dictionary lookup `myvocab[w]`; absent keys (a `KeyError` in Python)
are totalised to the default `Entry`. -/
def getE (v : Vocab) (w : String) : Entry :=
  match v.find? (fun p => p.1 == w) with
  | some p => p.2
  | none => {}

/-- Dictionary update `myvocab[w] = e`: replaces in place if the key exists,
otherwise appends (Python dicts keep insertion order). -/
def setE (v : Vocab) (w : String) (e : Entry) : Vocab :=
  if hasKey v w then v.map (fun p => if p.1 == w then (w, e) else p)
  else v ++ [(w, e)]

/-- Dictionary deletion `del myvocab[w]`. -/
def delE (v : Vocab) (w : String) : Vocab :=
  v.filter (fun p => p.1 != w)

/-- The keys of the vocabulary, in insertion order. -/
def keys (v : Vocab) : List String :=
  v.map Prod.fst

/-- One observation tuple `(token, timediff, source, inheadings)` as yielded
by `read_file`. -/
structure Obs where
  token : String
  timediff : Int
  source : Option String
  inheadings : Bool
  deriving Repr, DecidableEq

/-- The source occurrences recorded by one `putinvocab` call: the source
string when it is present and non-empty (`source is not None and
len(source) > 0`), nothing otherwise. -/
def srcList (source : Option String) : List String :=
  match source with
  | some s => if 0 < s.length then [s] else []
  | none => []

/-- `putinvocab(myvocab, wordform, timediff, source, inheadings)`: create the
entry if absent, append the day-offset, record the source when non-empty,
and set the headings flag when the occurrence was in a heading. -/
def putinvocab (myvocab : Vocab) (wordform : String) (timediff : Int)
    (source : Option String) (inheadings : Bool := false) : Vocab :=
  let v := if hasKey myvocab wordform then myvocab else myvocab ++ [(wordform, ({} : Entry))]
  let e := getE v wordform
  setE v wordform
    { e with
      time_series := e.time_series ++ [timediff],
      sources := e.sources ++ srcList source,
      headings := e.headings || inheadings }

/-- The merge performed by `prune_vocab` on the absorbing entry:
time series concatenated, source counters summed, headings OR-ed. -/
def mergeE (e2 e1 : Entry) : Entry :=
  { e2 with
    time_series := e2.time_series ++ e1.time_series,
    sources := e2.sources ++ e1.sources,
    headings := e2.headings || e1.headings }

/-- `prune_vocab(myvocab, first, second)`: create `second` if absent, then
append the characteristics of `first` to it (the `KeyError` guard around the
sources/headings lines never fires in this model, where every field is always
present). -/
def prune_vocab (myvocab : Vocab) (first second : String) : Vocab :=
  let v := if hasKey myvocab second then myvocab else myvocab ++ [(second, ({} : Entry))]
  setE v second (mergeE (getE v second) (getE v first))

/-- The candidate word-form built by `dehyphen_vocab`: drop all hyphens,
lower-case the remaining characters, and re-capitalize the first character
when the original word starts with an upper-case character
(`str.capitalize` also lower-cases the rest, which is already lower-case
here). Char-level case functions model the Python ones. -/
def dehyphenCandidate (wordform : String) : String :=
  let base := (wordform.data.filter (fun c => c ≠ '-')).map Char.toLower
  if (wordform.data.headD ' ').isUpper then
    String.mk (match base with
      | [] => []
      | c :: cs => c.toUpper :: cs)
  else String.mk base

/-- The loop body of `dehyphen_vocab` (state: current vocabulary and the
deletions scheduled so far): when the candidate is a key, fuse the
occurrence lists into it and schedule the hyphenated word for deletion. -/
def dehyphenStep (p : Vocab × List String) (wordform : String) :
    Vocab × List String :=
  let candidate := dehyphenCandidate wordform
  if hasKey p.1 candidate then
    (prune_vocab p.1 wordform candidate, p.2 ++ [wordform])
  else p

/-- `dehyphen_vocab(vocab)`: fold `dehyphenStep` over the hyphen-containing
word-forms, then delete the scheduled keys. -/
def dehyphen_vocab (vocab : Vocab) : Vocab :=
  let hyphenated := (keys vocab).filter (fun w => w.data.contains '-')
  let r := hyphenated.foldl dehyphenStep (vocab, [])
  r.2.foldl delE r.1

/-- `float('{0:.3f}'.format(x))`: rounding to 3 decimal places, modelled as
exact rational rounding. -/
def round3 (x : ℚ) : ℚ :=
  (round (x * 1000) : ℤ) / 1000

/-- `calculate_bins`: the Python `range(oldestday, newestday - 1, -1)`,
a descending run of `n` consecutive integers starting at `start`. -/
def rangeDown (start : Int) : Nat → List Int
  | 0 => []
  | n + 1 => start :: rangeDown (start - 1) n

/-- `calculate_bins(oldestday, newestday, interval)`: day-offsets counting
down from `oldestday` to `newestday`, kept when at least `interval` days
younger than `oldestday` and a multiple of `interval`. -/
def calculate_bins (oldestday newestday : Int) (interval : Int := 7) : List Int :=
  (rangeDown oldestday (oldestday - (newestday - 1)).toNat).filter
    (fun d => interval ≤ oldestday - d && d % interval == 0)

/-- The filter applied by `refine_frequencies` to a time series:
keep the day-offsets `d` with `bins[-1] <= d < bins[0]`. -/
def refineSeries (bins : List Int) (ts : List Int) : List Int :=
  ts.filter (fun d => decide (bins.getLastD 0 ≤ d) && decide (d < bins.headD 0))

/-- `refine_frequencies(vocab, bins)`: restrict every entry's time series to
the bin range and delete the words left with at most one occurrence
(scheduled during the loop, deleted afterwards — the net effect on the
insertion-ordered dict is this filter-then-map). -/
def refine_frequencies (vocab : Vocab) (bins : List Int) : Vocab :=
  (vocab.filter (fun p => 1 < (refineSeries bins p.2.time_series).length)).map
    (fun p => (p.1, { p.2 with time_series := refineSeries bins p.2.time_series }))

/-- The count landing in bin `i` inside `compute_frequencies`: Python builds
`days = Counter(time_series)` and sums `days[d]` over the distinct keys `d`
satisfying the window condition, which is the number of elements of
`time_series` satisfying it (`d ≤ bins[0]` for bin 0, else
`bins[i-1] < d ≤ bins[i]`). -/
def binTotal (ts : List Int) (bins : List Int) (i : Nat) : Nat :=
  if i = 0 then ts.countP (fun d => decide (d ≤ bins.headD 0))
  else ts.countP (fun d => decide (bins.getD (i - 1) 0 < d) && decide (d ≤ bins.getD i 0))

/-- `compute_frequencies(vocab, bins)`: per-entry ppm `total`, per-bin
absolute counts capped at `maxVal` (`MAX_SERIES_VAL`, a parameter here since
`datatypes.py` is not among the sources) and stored reversed as `series_abs`,
per-bin totals accumulated and returned reversed; `del .time_series` is
modelled by setting the field to `[]`. -/
def compute_frequencies (maxVal : Nat) (vocab : Vocab) (bins : List Int) :
    Vocab × List Nat :=
  let freqsum : Nat := (vocab.map (fun p => p.2.time_series.length)).sum
  let v' := vocab.map (fun p =>
    (p.1, { p.2 with
      total := round3 (((p.2.time_series.length : ℚ) / (freqsum : ℚ)) * 1000000),
      series_abs := ((List.range bins.length).map
          (fun i => min maxVal (binTotal p.2.time_series bins i))).reverse,
      time_series := [] }))
  let timeseries := (List.range bins.length).map
      (fun i => (vocab.map (fun p => min maxVal (binTotal p.2.time_series bins i))).sum)
  (v', timeseries.reverse)

/-- `np.mean` over a list of rationals (empty input, a NaN in numpy, is
totalised to 0 by rational division). -/
def listMean (xs : List ℚ) : ℚ :=
  xs.sum / xs.length

/-- The population variance (divisor = count) under `np.std`'s square root. -/
def popVariance (xs : List ℚ) : ℚ :=
  ((xs.map (fun v => (v - listMean xs) ^ 2)).sum) / xs.length

/-- The loop body of `combine_frequencies` for one entry: append the per-bin
relative (ppm) frequencies to `series_rel` (0.0 on a `ZeroDivisionError`),
then compute mean and standard deviation over the non-zero values;
`np.std`'s square root is the abstract parameter `sqrtFn`, applied to the
population variance; `del .series_abs` is modelled by `[]`. -/
def combineEntry (sqrtFn : ℚ → ℚ) (bins : List Int) (timeseries : List Nat)
    (e : Entry) : Entry :=
  let rel := e.series_rel ++ (List.range bins.length).map (fun i =>
    if timeseries.getD i 0 = 0 then 0
    else ((e.series_abs.getD i 0 : ℚ) / (timeseries.getD i 0 : ℚ)) * 1000000)
  let series := rel.filter (fun f => decide (f ≠ 0))
  { e with
    series_rel := rel,
    stddev := round3 (sqrtFn (popVariance series)),
    mean := round3 (listMean series),
    series_abs := [] }

/-- `combine_frequencies(vocab, bins, timeseries)`: apply `combineEntry` to
every entry. -/
def combine_frequencies (sqrtFn : ℚ → ℚ) (vocab : Vocab) (bins : List Int)
    (timeseries : List Nat) : Vocab :=
  vocab.map (fun p => (p.1, combineEntry sqrtFn bins timeseries p.2))

/-- A row written by `store_freqlist`: the header, or a data row
`(word, total, mean, stddev, series_rel)`. -/
inductive Row where
  | header : Row
  | data : String → ℚ → ℚ → ℚ → List ℚ → Row
  deriving Repr, DecidableEq

/-- The word of a data row (the header carries none). -/
def rowWord : Row → String
  | Row.header => ""
  | Row.data w _ _ _ _ => w

/-- The loop body of `store_freqlist` for one word: skip it when its stddev
is 0, write its data row when `mean > thres_a or (mean > thres_b and
stddev < mean/2)`. -/
def storeRow (freqs : Vocab) (thres_a thres_b : ℚ) (w : String) : Option Row :=
  let e := getE freqs w
  if e.stddev = 0 then none
  else if e.mean > thres_a ∨ (e.mean > thres_b ∧ e.stddev < e.mean / 2) then
    some (Row.data w e.total e.mean e.stddev e.series_rel)
  else none

/-- `store_freqlist(freqs, filename, thres_a, thres_b)`: header row, then one
data row per retained word, the words visited in sorted order
(`sorted(freqs)`); the written file is modelled as the list of rows. -/
def store_freqlist (freqs : Vocab) (thres_a : ℚ := 1) (thres_b : ℚ := 1/5) :
    List Row :=
  Row.header
    :: ((keys freqs).insertionSort (· ≤ ·)).filterMap (storeRow freqs thres_a thres_b)

/-- Insert a batch of observations with `putinvocab`, in order. -/
def ingest (v : Vocab) (obs : List Obs) : Vocab :=
  obs.foldl (fun v o => putinvocab v o.token o.timediff o.source o.inheadings) v

/-- The file-reading section of `gen_wordlist`, abstracted over the
observations each discovered file yields (file I/O, XML parsing and thread
scheduling are external; the vocabulary contents do not depend on completion
order, so the pool loop consumes the files in the given order): when
`threads == 1` the legacy sequential loop runs first, and the thread-pool
loop then runs unconditionally over the same files. -/
def gen_wordlist_ingestion (threads : Nat) (filesObs : List (List Obs)) : Vocab :=
  let v0 : Vocab := []
  let v1 := if threads = 1 then ingest v0 filesObs.flatten else v0
  ingest v1 filesObs.flatten

/-- The document-level data `read_file` extracts before filtering, with the
external collaborators abstracted: `timediff` is `calc_timediff` of the
document date (`none` when unparseable), `authorMatched` is
`some (authorregex matched)` when an author regex was supplied,
`source` the URL-domain or publisher, `headTokens` the heading tokens and
`bodyTokens` the body token stream. -/
structure Doc where
  timediff : Option Int
  authorMatched : Option Bool
  source : Option String
  headTokens : List String
  bodyTokens : List String

/-- `read_file(filepath, maxdiff, mindiff, authorregex, details)` as a
function of the parsed document: discard the document unless
`mindiff < timediff <= maxdiff`, discard it when the author regex matched,
then yield one observation per relevant body token. -/
def read_file (relevant : String → Bool) (doc : Doc) (maxdiff : Int := 1000)
    (mindiff : Int := 0) (details : Bool := true) : List Obs :=
  match doc.timediff with
  | none => []
  | some timediff =>
    if ¬(mindiff < timediff ∧ timediff ≤ maxdiff) then []
    else if doc.authorMatched = some true then []
    else
      let source := if details then doc.source else none
      let headwords := if details then doc.headTokens else []
      (doc.bodyTokens.filter relevant).map (fun token =>
        { token := token, timediff := timediff, source := source,
          inheadings := headwords.contains token })

/-- One TSV line of `load_wordlist` after column splitting: `timediff` is
`calc_timediff(date)` (`none` when the date is unparseable); the line is
skipped when the date is unparseable or `timediff > maxdiff`, otherwise the
token is put in the vocabulary. Note: this path checks no lower bound. -/
def load_wordlist_line (maxdiff : Int) (v : Vocab) (token : String)
    (timediff : Option Int) (source : Option String) : Vocab :=
  match timediff with
  | none => v
  | some td => if td > maxdiff then v else putinvocab v token td source false

/-- Python `min` of a list of ints, totalised on the empty list. -/
def listMinI (l : List Int) : Int :=
  l.foldl min (l.headD 0)

/-- Python `max` of a list of ints, totalised on the empty list. -/
def listMaxI (l : List Int) : Int :=
  l.foldl max (l.headD 0)

/-- The loop body of the bin-bound derivation in `gen_freqlist`
(`p = (oldestday, newestday)`): the word updates `oldestday` to its series
maximum when larger, and only otherwise (`elif`) may lower `newestday` to
its series minimum. -/
def boundsStep (p : Int × Int) (q : String × Entry) : Int × Int :=
  let mindiff := listMinI q.2.time_series
  let maxdiffW := listMaxI q.2.time_series
  if maxdiffW > p.1 then (maxdiffW, p.2)
  else if mindiff < p.2 then (p.1, mindiff)
  else p

/-- The bin-bound derivation section of `gen_freqlist`: starting from
`oldestday, newestday = 0, maxdiff`, fold `boundsStep` over the words. -/
def gen_freqlist_bounds (maxdiff : Int) (vocab : Vocab) : Int × Int :=
  vocab.foldl boundsStep (0, maxdiff)

/-- The day-offsets a batch of observations contributes to the entry of `w`
(one per observation of the word-form `w`, in order). -/
def obsSeries (l : List Obs) (w : String) : List Int :=
  (l.filter (fun o => o.token == w)).map (fun o => o.timediff)

/-- The source occurrences a batch of observations contributes to the entry
of `w`. -/
def obsSources : List Obs → String → List String
  | [], _ => []
  | o :: l, w => (if o.token == w then srcList o.source else []) ++ obsSources l w

/-- Whether a batch of observations sets the headings flag of `w`. -/
def obsHead (l : List Obs) (w : String) : Bool :=
  (l.filter (fun o => o.token == w)).any (fun o => o.inheadings)

theorem getE_nil (w : String) : getE [] w = {} := rfl

theorem getE_cons (p : String × Entry) (v : Vocab) (w : String) :
    getE (p :: v) w = if p.1 == w then p.2 else getE v w := by
  cases h : p.1 == w <;> simp [getE, List.find?, h]

theorem hasKey_nil (w : String) : hasKey [] w = false := rfl

theorem hasKey_cons (p : String × Entry) (v : Vocab) (w : String) :
    hasKey (p :: v) w = (p.1 == w || hasKey v w) := by
  simp [hasKey]

theorem getE_eq_default {v : Vocab} {w : String} (h : hasKey v w = false) :
    getE v w = {} := by
  induction v with
  | nil => rfl
  | cons p v ih =>
    rw [hasKey_cons, Bool.or_eq_false_iff] at h
    rw [getE_cons, if_neg (by simp [h.1]), ih h.2]

theorem getE_append (v l : Vocab) (w : String) :
    getE (v ++ l) w = if hasKey v w then getE v w else getE l w := by
  induction v with
  | nil => simp [hasKey_nil]
  | cons p v ih =>
    rw [List.cons_append, getE_cons, getE_cons, hasKey_cons, ih]
    cases h : p.1 == w <;> simp [h]

theorem hasKey_append (v l : Vocab) (w : String) :
    hasKey (v ++ l) w = (hasKey v w || hasKey l w) := by
  simp [hasKey]

theorem getE_mapReplace_self (v : Vocab) (w : String) (e : Entry)
    (h : hasKey v w = true) :
    getE (v.map (fun p => if p.1 == w then (w, e) else p)) w = e := by
  induction v with
  | nil => simp [hasKey_nil] at h
  | cons p v ih =>
    rw [List.map_cons]
    by_cases hp : p.1 = w
    · rw [if_pos (by simp [hp]), getE_cons]
      simp
    · have hpb : (p.1 == w) = false := beq_eq_false_iff_ne.mpr hp
      rw [hasKey_cons, hpb, Bool.false_or] at h
      rw [if_neg (by simp [hpb]), getE_cons, if_neg (by simp [hpb]), ih h]

theorem getE_mapReplace_ne (v : Vocab) (w w' : String) (e : Entry) (h : w' ≠ w) :
    getE (v.map (fun p => if p.1 == w then (w, e) else p)) w' = getE v w' := by
  induction v with
  | nil => rfl
  | cons p v ih =>
    rw [List.map_cons]
    by_cases hp : p.1 = w
    · have h2 : (w == w') = false := beq_eq_false_iff_ne.mpr (Ne.symm h)
      have h3 : (p.1 == w') = false := by rw [hp]; exact h2
      rw [if_pos (by simp [hp]), getE_cons, getE_cons]
      simp only [h2, h3, if_neg, Bool.false_eq_true, if_false]
      exact ih
    · rw [if_neg (by simp [beq_eq_false_iff_ne.mpr hp]), getE_cons, getE_cons]
      cases hpw : p.1 == w' with
      | true => simp [hpw]
      | false => simp only [hpw, Bool.false_eq_true, if_false]; exact ih

theorem getE_setE_self (v : Vocab) (w : String) (e : Entry) :
    getE (setE v w e) w = e := by
  rw [setE]
  by_cases h : hasKey v w = true
  · rw [if_pos h]
    exact getE_mapReplace_self v w e h
  · rw [if_neg h, getE_append, if_neg h, getE_cons]
    simp

theorem getE_setE_ne (v : Vocab) (w w' : String) (e : Entry) (h : w' ≠ w) :
    getE (setE v w e) w' = getE v w' := by
  rw [setE]
  by_cases hk : hasKey v w = true
  · rw [if_pos hk]
    exact getE_mapReplace_ne v w w' e h
  · rw [if_neg hk, getE_append]
    by_cases h2 : hasKey v w' = true
    · rw [if_pos h2]
    · rw [if_neg h2, getE_cons,
        getE_eq_default ((Bool.not_eq_true _).mp h2)]
      have hne : (w == w') = false := beq_eq_false_iff_ne.mpr (Ne.symm h)
      simp only [hne, Bool.false_eq_true, if_false]
      rfl

theorem keys_setE_of_hasKey (v : Vocab) (w : String) (e : Entry)
    (h : hasKey v w = true) : keys (setE v w e) = keys v := by
  rw [setE, if_pos h, keys, List.map_map, keys]
  apply List.map_congr_left
  intro p _
  cases hp : p.1 == w with
  | true => have : p.1 = w := by simpa using hp
            simp [Function.comp, hp, this]
  | false => simp [Function.comp, hp]

theorem hasKey_keys (v : Vocab) (w : String) :
    hasKey v w = (keys v).any (fun x => x == w) := by
  induction v with
  | nil => rfl
  | cons p v ih => simp [hasKey, keys] at ih ⊢; rw [ih]

theorem hasKey_of_keys_eq {v v' : Vocab} (h : keys v = keys v') (w : String) :
    hasKey v w = hasKey v' w := by
  rw [hasKey_keys, hasKey_keys, h]

theorem getE_delE_ne (v : Vocab) (w w' : String) (h : w' ≠ w) :
    getE (delE v w) w' = getE v w' := by
  induction v with
  | nil => rfl
  | cons p v ih =>
    rw [delE, List.filter]
    cases hp : p.1 != w with
    | true =>
      rw [getE_cons, getE_cons, ← delE, ih]
    | false =>
      have hpw : p.1 = w := by
        simp only [bne, Bool.not_eq_true'] at hp
        simpa using hp
      rw [← delE, ih, getE_cons]
      have : (p.1 == w') = false := by
        rw [hpw]; simp; exact fun hc => h hc.symm
      simp [this]

theorem hasKey_delE_self (v : Vocab) (w : String) :
    hasKey (delE v w) w = false := by
  rw [hasKey, List.any_eq_false]
  intro p hp
  have := List.of_mem_filter hp
  simp only [bne, Bool.not_eq_true'] at this ⊢
  intro hc
  rw [(by simpa using hc : p.1 = w)] at this
  simp at this

theorem hasKey_delE_ne (v : Vocab) (w w' : String) (h : w' ≠ w) :
    hasKey (delE v w) w' = hasKey v w' := by
  induction v with
  | nil => rfl
  | cons p v ih =>
    rw [delE, List.filter]
    cases hp : p.1 != w with
    | true => rw [hasKey_cons, ← delE, ih, hasKey_cons]
    | false =>
      have hpw : p.1 = w := by
        simp only [bne, Bool.not_eq_true'] at hp
        simpa using hp
      rw [← delE, ih, hasKey_cons]
      have : (p.1 == w') = false := by
        rw [hpw]; simp; exact fun hc => h hc.symm
      simp [this]

theorem getE_foldl_delE (dels : List String) (v : Vocab) (w : String)
    (h : w ∉ dels) :
    getE (dels.foldl delE v) w = getE v w := by
  induction dels generalizing v with
  | nil => rfl
  | cons d ds ih =>
    rw [List.foldl_cons, ih _ (by simp at h; exact h.2),
      getE_delE_ne _ _ _ (by simp at h; exact h.1)]

theorem hasKey_foldl_delE_absent (dels : List String) (v : Vocab) (w : String)
    (h : hasKey v w = false) :
    hasKey (dels.foldl delE v) w = false := by
  induction dels generalizing v with
  | nil => exact h
  | cons d ds ih =>
    rw [List.foldl_cons]
    apply ih
    by_cases hd : w = d
    · subst hd; exact hasKey_delE_self v w
    · rw [hasKey_delE_ne _ _ _ hd]; exact h

theorem hasKey_foldl_delE (dels : List String) (v : Vocab) (w : String) :
    hasKey (dels.foldl delE v) w = if w ∈ dels then false else hasKey v w := by
  induction dels generalizing v with
  | nil => simp
  | cons d ds ih =>
    rw [List.foldl_cons, ih]
    by_cases hd : w = d
    · subst hd
      rw [if_pos (List.mem_cons_self _ _)]
      by_cases hds : w ∈ ds
      · rw [if_pos hds]
      · rw [if_neg hds]
        exact hasKey_delE_self v w
    · by_cases hds : w ∈ ds
      · rw [if_pos hds, if_pos (List.mem_cons_of_mem _ hds)]
      · rw [if_neg hds, if_neg (by simp [List.mem_cons, hd, hds])]
        exact hasKey_delE_ne v d w hd

theorem getE_map (g : Entry → Entry) (v : Vocab) (w : String) :
    getE (v.map (fun p => (p.1, g p.2))) w
      = if hasKey v w then g (getE v w) else {} := by
  induction v with
  | nil => simp [hasKey_nil, getE_nil]
  | cons p v ih =>
    rw [List.map_cons, getE_cons, getE_cons, hasKey_cons, ih]
    cases hp : p.1 == w <;> simp [hp]

theorem rangeDown_length (start : Int) (n : Nat) : (rangeDown start n).length = n := by
  induction n generalizing start with
  | zero => rfl
  | succ n ih => simp [rangeDown, ih]

theorem mem_rangeDown {start d : Int} {n : Nat} :
    d ∈ rangeDown start n ↔ start - n < d ∧ d ≤ start := by
  induction n generalizing start with
  | zero => simp [rangeDown]
  | succ n ih =>
    simp only [rangeDown, List.mem_cons, ih]
    constructor
    · rintro (rfl | ⟨h1, h2⟩) <;> constructor <;> omega
    · rintro ⟨h1, h2⟩
      rcases eq_or_lt_of_le h2 with h | h
      · exact Or.inl h
      · exact Or.inr ⟨by omega, by omega⟩

theorem rangeDown_sorted (start : Int) (n : Nat) :
    (rangeDown start n).Pairwise (· > ·) := by
  induction n generalizing start with
  | zero => exact List.Pairwise.nil
  | succ n ih =>
    refine List.Pairwise.cons (fun d hd => ?_) (ih (start - 1))
    have := mem_rangeDown.mp hd
    omega

theorem mem_calculate_bins {oldest newest interval d : Int} :
    d ∈ calculate_bins oldest newest interval ↔
      (oldest - (oldest - (newest - 1)).toNat < d ∧ d ≤ oldest) ∧
      (interval ≤ oldest - d ∧ d % interval = 0) := by
  simp [calculate_bins, List.mem_filter, mem_rangeDown]

/-- C5: for `oldest ≥ newest ≥ 0` and `interval > 0`, `calculate_bins` returns
a strictly decreasing list of multiples of `interval`, each element `d`
satisfying `oldest - d ≥ interval` and `d ≥ newest`, and the result is empty
whenever `oldest - newest < interval`. -/
theorem calculate_bins_spec (oldest newest interval : Int)
    (h1 : newest ≤ oldest) (_h2 : 0 ≤ newest) (_h3 : 0 < interval) :
    (calculate_bins oldest newest interval).Pairwise (· > ·) ∧
    (∀ d ∈ calculate_bins oldest newest interval,
        interval ∣ d ∧ interval ≤ oldest - d ∧ newest ≤ d) ∧
    (oldest - newest < interval → calculate_bins oldest newest interval = []) := by
  have hmem : ∀ d ∈ calculate_bins oldest newest interval,
      interval ∣ d ∧ interval ≤ oldest - d ∧ newest ≤ d := by
    intro d hd
    obtain ⟨⟨hlo, _⟩, hint, hmod⟩ := mem_calculate_bins.mp hd
    refine ⟨Int.dvd_of_emod_eq_zero hmod, hint, ?_⟩
    have : (oldest - (newest - 1)).toNat = oldest - newest + 1 := by omega
    omega
  refine ⟨?_, hmem, ?_⟩
  · exact List.Pairwise.sublist (List.filter_sublist _) (rangeDown_sorted _ _)
  · intro hspan
    rcases h : calculate_bins oldest newest interval with _ | ⟨d, rest⟩
    · rfl
    · exfalso
      have hd : d ∈ calculate_bins oldest newest interval := by
        rw [h]; exact List.mem_cons_self d rest
      obtain ⟨_, hint, hge⟩ := hmem d hd
      omega

/-- Witness for C5 at `oldest = 30`, `newest = 0`, `interval = 7`. -/
theorem calculate_bins_spec_witness :
    (calculate_bins 30 0 7).Pairwise (· > ·) ∧
    (∀ d ∈ calculate_bins 30 0 7, (7 : Int) ∣ d ∧ 7 ≤ 30 - d ∧ 0 ≤ d) ∧
    ((30 : Int) - 0 < 7 → calculate_bins 30 0 7 = []) :=
  calculate_bins_spec 30 0 7 (by decide) (by decide) (by decide)

theorem binTotal_pos_eq_zero {ts bins : List Int} {i : Nat}
    (hdec : bins.Pairwise (· > ·)) (h1 : 1 ≤ i) (h2 : i < bins.length) :
    binTotal ts bins i = 0 := by
  have hlt : bins.getD i 0 < bins.getD (i - 1) 0 := by
    have h1' : i - 1 < bins.length := by omega
    rw [List.getD_eq_getElem _ _ h2, List.getD_eq_getElem _ _ h1']
    exact List.pairwise_iff_get.mp hdec ⟨i - 1, h1'⟩ ⟨i, h2⟩ (by simp; omega)
  rw [binTotal, if_neg (by omega), List.countP_eq_zero]
  intro d _
  simp only [Bool.and_eq_true, decide_eq_true_eq]
  omega

theorem map_range_head_replicate (n : Nat) (f : Nat → Nat) (hn : 1 ≤ n)
    (hf : ∀ i, 1 ≤ i → i < n → f i = 0) :
    (List.range n).map f = f 0 :: List.replicate (n - 1) 0 := by
  obtain ⟨m, rfl⟩ : ∃ m, n = m + 1 := ⟨n - 1, by omega⟩
  rw [List.range_succ_eq_map, List.map_cons, List.map_map]
  congr 1
  simp only [Nat.add_sub_cancel]
  rw [List.eq_replicate_iff]
  refine ⟨by simp, ?_⟩
  intro b hb
  obtain ⟨i, hi, rfl⟩ := List.mem_map.mp hb
  exact hf (i + 1) (by omega) (by simp at hi; omega)

/-- C1: with a strictly decreasing bin list of length ≥ 2, the window
condition of `compute_frequencies` for bin `i > 0` is unsatisfiable, so every
entry's `series_abs` (oldest-to-newest) is all zeros except the last element,
which is `min maxVal` of the number of the entry's day-offsets `≤ bins[0]`,
and the returned per-bin totals list likewise is zero everywhere but at its
last position. -/
theorem compute_frequencies_degenerate (maxVal : Nat) (vocab : Vocab) (bins : List Int)
    (hdec : bins.Pairwise (· > ·)) (hlen : 2 ≤ bins.length) :
    (compute_frequencies maxVal vocab bins).1.map (fun q => q.2.series_abs)
      = vocab.map (fun p => List.replicate (bins.length - 1) 0
          ++ [min maxVal (p.2.time_series.countP (fun d => decide (d ≤ bins.headD 0)))])
    ∧ (compute_frequencies maxVal vocab bins).2
      = List.replicate (bins.length - 1) 0
          ++ [(vocab.map (fun p =>
                min maxVal (p.2.time_series.countP (fun d => decide (d ≤ bins.headD 0))))).sum] := by
  have hbin0 : ∀ ts : List Int,
      binTotal ts bins 0 = ts.countP (fun d => decide (d ≤ bins.headD 0)) := by
    intro ts; rw [binTotal, if_pos rfl]
  constructor
  · rw [compute_frequencies]
    simp only [List.map_map]
    apply List.map_congr_left
    intro p _
    simp only [Function.comp]
    rw [map_range_head_replicate _ _ (by omega)
        (fun i h1 h2 => by rw [binTotal_pos_eq_zero hdec h1 h2]; simp),
      List.reverse_cons, List.reverse_replicate, hbin0]
  · rw [compute_frequencies]
    simp only
    rw [map_range_head_replicate _ _ (by omega) (fun i h1 h2 => ?_),
      List.reverse_cons, List.reverse_replicate]
    · simp only [hbin0]
    · apply List.sum_eq_zero
      intro x hx
      obtain ⟨p, _, rfl⟩ := List.mem_map.mp hx
      rw [binTotal_pos_eq_zero hdec h1 h2]
      simp

/-- Witness for C1 at a concrete vocabulary and bin list. -/
theorem compute_frequencies_degenerate_witness :
    (compute_frequencies 65535 [("a", { time_series := [3, 10] })] [14, 7]).1.map
        (fun q => q.2.series_abs)
      = [("a", ({ time_series := [3, 10] } : Entry))].map
          (fun p => List.replicate (([14, 7] : List Int).length - 1) 0
            ++ [min 65535 (p.2.time_series.countP
                  (fun d => decide (d ≤ ([14, 7] : List Int).headD 0)))])
    ∧ (compute_frequencies 65535 [("a", { time_series := [3, 10] })] [14, 7]).2
      = List.replicate (([14, 7] : List Int).length - 1) 0
          ++ [([("a", ({ time_series := [3, 10] } : Entry))].map (fun p =>
                min 65535 (p.2.time_series.countP
                  (fun d => decide (d ≤ ([14, 7] : List Int).headD 0))))).sum] :=
  compute_frequencies_degenerate 65535 [("a", { time_series := [3, 10] })] [14, 7]
    (by decide) (by decide)

theorem getE_putinvocab_self (v : Vocab) (t : String) (td : Int)
    (src : Option String) (ihd : Bool) :
    getE (putinvocab v t td src ihd) t
      = { getE v t with
          time_series := (getE v t).time_series ++ [td],
          sources := (getE v t).sources ++ srcList src,
          headings := (getE v t).headings || ihd } := by
  have hv : getE (if hasKey v t then v else v ++ [(t, ({} : Entry))]) t = getE v t := by
    by_cases h : hasKey v t = true
    · rw [if_pos h]
    · rw [if_neg h, getE_append, if_neg h,
        getE_eq_default ((Bool.not_eq_true _).mp h), getE_cons]
      simp
  simp only [putinvocab]
  rw [getE_setE_self, hv]

theorem getE_putinvocab_ne (v : Vocab) (t w : String) (td : Int)
    (src : Option String) (ihd : Bool) (h : w ≠ t) :
    getE (putinvocab v t td src ihd) w = getE v w := by
  have hv : getE (if hasKey v t then v else v ++ [(t, ({} : Entry))]) w = getE v w := by
    by_cases hk : hasKey v t = true
    · rw [if_pos hk]
    · rw [if_neg hk, getE_append]
      by_cases h2 : hasKey v w = true
      · rw [if_pos h2]
      · rw [if_neg h2, getE_cons]
        have hb : (t == w) = false := beq_eq_false_iff_ne.mpr (Ne.symm h)
        simp only [hb, Bool.false_eq_true, if_false]
        rw [getE_nil, getE_eq_default ((Bool.not_eq_true _).mp h2)]
  simp only [putinvocab]
  rw [getE_setE_ne _ _ _ _ h, hv]

theorem getE_ingest (l : List Obs) (v : Vocab) (w : String) :
    getE (ingest v l) w
      = { getE v w with
          time_series := (getE v w).time_series ++ obsSeries l w,
          sources := (getE v w).sources ++ obsSources l w,
          headings := (getE v w).headings || obsHead l w } := by
  induction l generalizing v with
  | nil => simp [ingest, obsSeries, obsSources, obsHead]
  | cons o l ih =>
    have hstep : ingest v (o :: l)
        = ingest (putinvocab v o.token o.timediff o.source o.inheadings) l := rfl
    rw [hstep, ih]
    by_cases ht : o.token = w
    · subst ht
      rw [getE_putinvocab_self]
      simp [obsSeries, obsSources, obsHead, List.filter_cons,
        List.append_assoc, Bool.or_assoc]
    · rw [getE_putinvocab_ne _ _ _ _ _ _ (fun hc => ht hc.symm)]
      have hb : (o.token == w) = false := beq_eq_false_iff_ne.mpr ht
      simp [obsSeries, obsSources, obsHead, List.filter_cons, hb]

/-- C2: with `threads == 1`, `gen_wordlist` runs both the legacy sequential
loop and the (unguarded) thread-pool loop over the same files, so every
entry's time series and source multiset is the single-pass one concatenated
with itself: every day-offset occurs twice, every source count is doubled. -/
theorem gen_wordlist_threads_one_double (filesObs : List (List Obs)) (w : String) :
    ((getE (gen_wordlist_ingestion 1 filesObs) w).time_series
        = (getE (ingest [] filesObs.flatten) w).time_series
            ++ (getE (ingest [] filesObs.flatten) w).time_series)
    ∧ ((getE (gen_wordlist_ingestion 1 filesObs) w).sources
        = (getE (ingest [] filesObs.flatten) w).sources
            ++ (getE (ingest [] filesObs.flatten) w).sources)
    ∧ (∀ d : Int, (getE (gen_wordlist_ingestion 1 filesObs) w).time_series.count d
        = 2 * (getE (ingest [] filesObs.flatten) w).time_series.count d)
    ∧ (∀ s : String, (getE (gen_wordlist_ingestion 1 filesObs) w).sources.count s
        = 2 * (getE (ingest [] filesObs.flatten) w).sources.count s) := by
  have hdouble : gen_wordlist_ingestion 1 filesObs
      = ingest (ingest [] filesObs.flatten) filesObs.flatten := rfl
  have hsingle : getE (ingest [] filesObs.flatten) w
      = { time_series := obsSeries filesObs.flatten w,
          sources := obsSources filesObs.flatten w,
          headings := obsHead filesObs.flatten w } := by
    rw [getE_ingest, getE_nil]
    simp
  rw [hdouble, getE_ingest, hsingle]
  refine ⟨by simp, by simp, fun d => ?_, fun s => ?_⟩
  · simp [List.count_append]
    omega
  · simp [List.count_append]
    omega

/-- C3, counterexample: the TSV path (`load_wordlist`) admits a day-offset
of −1 (a future date) into the vocabulary although −1 lies outside both
`(mindiff, maxdiff]` and `[mindiff, maxdiff)` for the nominal
`mindiff = 0`, `maxdiff = 1000`. -/
theorem load_wordlist_gate_counterexample :
    ¬((0 : Int) < -1 ∧ (-1 : Int) ≤ 1000)
    ∧ ¬((0 : Int) ≤ -1 ∧ (-1 : Int) < 1000)
    ∧ hasKey (load_wordlist_line 1000 [] "tok" (some (-1)) none) "tok" = true := by
  refine ⟨by omega, by omega, ?_⟩
  decide

/-- C3, amended: the XML path (`read_file`) only yields observations with
`mindiff < timediff ≤ maxdiff`, while the TSV path (`load_wordlist`) adds
the token exactly when `timediff ≤ maxdiff`, with no lower bound. -/
theorem ingestion_gate_amended :
    (∀ (relevant : String → Bool) (doc : Doc) (maxdiff mindiff : Int)
        (details : Bool) (o : Obs),
        o ∈ read_file relevant doc maxdiff mindiff details →
          mindiff < o.timediff ∧ o.timediff ≤ maxdiff)
    ∧ (∀ (maxdiff : Int) (v : Vocab) (token : String) (td : Int)
        (source : Option String),
        load_wordlist_line maxdiff v token (some td) source
          = if td ≤ maxdiff then putinvocab v token td source false else v) := by
  constructor
  · intro relevant doc maxdiff mindiff details o ho
    rcases hdt : doc.timediff with _ | td
    · rw [read_file, hdt] at ho
      simp at ho
    · simp only [read_file, hdt] at ho
      by_cases hg : mindiff < td ∧ td ≤ maxdiff
      · rw [if_neg (not_not_intro hg)] at ho
        by_cases ha : doc.authorMatched = some true
        · rw [if_pos ha] at ho
          simp at ho
        · rw [if_neg ha] at ho
          obtain ⟨t, _, rfl⟩ := List.mem_map.mp ho
          simpa using hg
      · rw [if_pos hg] at ho
        simp at ho
  · intro maxdiff v token td source
    rw [load_wordlist_line]
    by_cases h : td ≤ maxdiff
    · rw [if_neg (by omega), if_pos h]
    · rw [if_pos (by omega), if_neg h]

/-- Witness for C3 (amended) at a concrete document and line. -/
theorem ingestion_gate_amended_witness :
    ({ token := "x", timediff := 5, source := none, inheadings := false } : Obs)
        ∈ read_file (fun _ => true)
            { timediff := some 5, authorMatched := none, source := none,
              headTokens := [], bodyTokens := ["x"] } 1000 0 true
    ∧ ((0 : Int) < 5 ∧ (5 : Int) ≤ 1000)
    ∧ load_wordlist_line 1000 [] "x" (some 5) none
        = if (5 : Int) ≤ 1000 then putinvocab [] "x" 5 none false else [] :=
  ⟨by decide,
   ingestion_gate_amended.1 (fun _ => true)
     { timediff := some 5, authorMatched := none, source := none,
       headTokens := [], bodyTokens := ["x"] } 1000 0 true
     { token := "x", timediff := 5, source := none, inheadings := false }
     (by decide),
   ingestion_gate_amended.2 1000 [] "x" 5 none⟩

/-- C4, counterexample: with a single word whose series is `[5, 10]` and the
default `maxdiff = 1000`, the word raises `oldestday`, so the `elif` skips
the `newestday` update: `calculate_bins` is called with
`newestday = 1000`, not the minimum day-offset 5. -/
theorem gen_freqlist_bounds_counterexample :
    gen_freqlist_bounds 1000 [("a", { time_series := [5, 10] })] = (10, 1000)
    ∧ listMinI [5, 10] = 5
    ∧ ((1000 : Int) = 5 → False) := by
  refine ⟨by decide, by decide, by omega⟩

theorem boundsStep_fst (p : Int × Int) (q : String × Entry) :
    (boundsStep p q).1 = max p.1 (listMaxI q.2.time_series) := by
  rw [boundsStep]
  by_cases h : listMaxI q.2.time_series > p.1
  · rw [if_pos h]
    exact (max_eq_right (le_of_lt h)).symm
  · rw [if_neg h]
    by_cases h2 : listMinI q.2.time_series < p.2
    · rw [if_pos h2]
      exact (max_eq_left (not_lt.mp h)).symm
    · rw [if_neg h2]
      exact (max_eq_left (not_lt.mp h)).symm

theorem boundsStep_snd (p : Int × Int) (q : String × Entry) :
    (boundsStep p q).2 ≤ p.2
    ∧ ((boundsStep p q).2 = p.2
        ∨ (boundsStep p q).2 = listMinI q.2.time_series) := by
  rw [boundsStep]
  by_cases h : listMaxI q.2.time_series > p.1
  · rw [if_pos h]
    exact ⟨le_refl _, Or.inl rfl⟩
  · rw [if_neg h]
    by_cases h2 : listMinI q.2.time_series < p.2
    · rw [if_pos h2]
      exact ⟨le_of_lt h2, Or.inr rfl⟩
    · rw [if_neg h2]
      exact ⟨le_refl _, Or.inl rfl⟩

theorem foldl_boundsStep_fst (l : Vocab) (p : Int × Int) :
    (l.foldl boundsStep p).1
      = (l.map (fun q => listMaxI q.2.time_series)).foldl max p.1 := by
  induction l generalizing p with
  | nil => rfl
  | cons q l ih =>
    rw [List.foldl_cons, List.map_cons, List.foldl_cons, ih, boundsStep_fst]

theorem foldl_boundsStep_snd (l : Vocab) (p : Int × Int) :
    (l.foldl boundsStep p).2 ≤ p.2
    ∧ ((l.foldl boundsStep p).2 = p.2
        ∨ ∃ q ∈ l, (l.foldl boundsStep p).2 = listMinI q.2.time_series) := by
  induction l generalizing p with
  | nil => exact ⟨le_refl _, Or.inl rfl⟩
  | cons q l ih =>
    rw [List.foldl_cons]
    obtain ⟨hle, hcase⟩ := ih (boundsStep p q)
    obtain ⟨hle0, hcase0⟩ := boundsStep_snd p q
    refine ⟨le_trans hle hle0, ?_⟩
    rcases hcase with heq | ⟨r, hr, heq⟩
    · rcases hcase0 with heq0 | heq0
      · exact Or.inl (heq.trans heq0)
      · exact Or.inr ⟨q, List.mem_cons_self _ _, heq.trans heq0⟩
    · exact Or.inr ⟨r, List.mem_cons_of_mem _ hr, heq⟩

/-- C4, amended: `gen_freqlist` calls `calculate_bins` with `oldestday` equal
to the maximum of 0 and all series maxima, while `newestday` starts at the
`maxdiff` parameter and is only lowered by words whose maximum did not
exceed the running `oldestday` (the `elif`), so it is at most `maxdiff` and
is either `maxdiff` or some entry's series minimum — not in general the
global minimum day-offset. -/
theorem gen_freqlist_bounds_spec (maxdiff : Int) (vocab : Vocab) :
    (gen_freqlist_bounds maxdiff vocab).1
      = (vocab.map (fun q => listMaxI q.2.time_series)).foldl max 0
    ∧ (gen_freqlist_bounds maxdiff vocab).2 ≤ maxdiff
    ∧ ((gen_freqlist_bounds maxdiff vocab).2 = maxdiff
        ∨ ∃ q ∈ vocab,
            (gen_freqlist_bounds maxdiff vocab).2 = listMinI q.2.time_series) := by
  refine ⟨foldl_boundsStep_fst vocab (0, maxdiff), ?_, ?_⟩
  · exact (foldl_boundsStep_snd vocab (0, maxdiff)).1
  · exact (foldl_boundsStep_snd vocab (0, maxdiff)).2

theorem hasKey_of_mem {v : Vocab} {w : String} {e : Entry} (h : (w, e) ∈ v) :
    hasKey v w = true := by
  rw [hasKey, List.any_eq_true]
  exact ⟨(w, e), h, by simp⟩

theorem mem_of_hasKey {v : Vocab} {w : String} (h : hasKey v w = true) :
    (w, getE v w) ∈ v := by
  rw [hasKey, List.any_eq_true] at h
  obtain ⟨p, hp, hb⟩ := h
  rcases hf : v.find? (fun p => p.1 == w) with _ | q
  · exact absurd hb (by simpa using List.find?_eq_none.mp hf p hp)
  · have hq : q.1 = w := by simpa using List.find?_some hf
    have hm := List.mem_of_find?_eq_some hf
    rw [getE, hf]
    rw [← hq]
    exact hm

theorem getE_of_mem {v : Vocab} {w : String} {e : Entry}
    (hnod : (keys v).Nodup) (h : (w, e) ∈ v) : getE v w = e := by
  induction v with
  | nil => simp at h
  | cons p v ih =>
    simp only [keys, List.map_cons, List.nodup_cons] at hnod
    rw [getE_cons]
    rcases List.mem_cons.mp h with heq | hm
    · rw [← heq]
      simp
    · have hne : p.1 ≠ w := by
        intro hc
        exact hnod.1 (hc ▸ List.mem_map.mpr ⟨(w, e), hm, rfl⟩)
      rw [if_neg (by simp [hne])]
      exact ih hnod.2 hm

theorem mem_refine_frequencies {vocab : Vocab} {bins : List Int}
    {w : String} {e' : Entry} :
    (w, e') ∈ refine_frequencies vocab bins
      ↔ ∃ e, (w, e) ∈ vocab ∧ 1 < (refineSeries bins e.time_series).length
          ∧ e' = { e with time_series := refineSeries bins e.time_series } := by
  rw [refine_frequencies]
  constructor
  · intro h
    obtain ⟨p, hp, heq⟩ := List.mem_map.mp h
    obtain ⟨hpv, hcond⟩ := List.mem_filter.mp hp
    refine ⟨p.2, ?_, by simpa using hcond, ?_⟩
    · have : p = (w, p.2) := by
        rw [Prod.ext_iff] at heq ⊢
        exact ⟨heq.1, rfl⟩
      rw [← this]; exact hpv
    · rw [Prod.ext_iff] at heq
      exact heq.2.symm
  · rintro ⟨e, hm, hcond, rfl⟩
    exact List.mem_map.mpr ⟨(w, e),
      List.mem_filter.mpr ⟨hm, by simpa using hcond⟩, rfl⟩

theorem keys_refine_sublist (vocab : Vocab) (bins : List Int) :
    List.Sublist (keys (refine_frequencies vocab bins)) (keys vocab) := by
  have h1 : keys (refine_frequencies vocab bins)
      = keys (vocab.filter
          (fun p => 1 < (refineSeries bins p.2.time_series).length)) := by
    rw [refine_frequencies, keys, List.map_map, keys]
    exact List.map_congr_left (fun p _ => rfl)
  rw [h1, keys, keys]
  exact List.Sublist.map _ (List.filter_sublist _)

theorem hasKey_refine_of_hasKey {vocab : Vocab} {bins : List Int} {w : String}
    (h : hasKey (refine_frequencies vocab bins) w = true) :
    hasKey vocab w = true := by
  rw [hasKey_keys, List.any_eq_true] at h ⊢
  obtain ⟨x, hx, hb⟩ := h
  exact ⟨x, (keys_refine_sublist vocab bins).mem hx, hb⟩

/-- C6: with a non-empty bin list, a word survives `refine_frequencies`
exactly when more than one of its day-offsets `d` satisfies
`bins[-1] ≤ d < bins[0]`, and a surviving entry is the original entry with
`time_series` replaced by exactly that filtered subsequence (all other
fields unchanged). -/
theorem refine_frequencies_spec (vocab : Vocab) (bins : List Int)
    (hnod : (keys vocab).Nodup) (_hbins : bins ≠ []) (w : String) :
    (hasKey (refine_frequencies vocab bins) w = true
      ↔ hasKey vocab w = true
        ∧ 1 < ((getE vocab w).time_series.filter
            (fun d => decide (bins.getLastD 0 ≤ d) && decide (d < bins.headD 0))).length)
    ∧ (hasKey (refine_frequencies vocab bins) w = true →
        getE (refine_frequencies vocab bins) w
          = { getE vocab w with
              time_series := (getE vocab w).time_series.filter
                (fun d => decide (bins.getLastD 0 ≤ d) && decide (d < bins.headD 0)) }) := by
  have hnod' : (keys (refine_frequencies vocab bins)).Nodup :=
    List.Nodup.sublist (keys_refine_sublist vocab bins) hnod
  constructor
  · constructor
    · intro h
      obtain ⟨e, hm, hcond, _⟩ := mem_refine_frequencies.mp (mem_of_hasKey h)
      have he : getE vocab w = e := getE_of_mem hnod hm
      rw [refineSeries] at hcond
      exact ⟨hasKey_of_mem hm, by rw [he]; exact hcond⟩
    · rintro ⟨hk, hcond⟩
      apply hasKey_of_mem (e := { getE vocab w with
        time_series := refineSeries bins (getE vocab w).time_series })
      exact mem_refine_frequencies.mpr
        ⟨getE vocab w, mem_of_hasKey hk, by rw [refineSeries]; exact hcond, rfl⟩
  · intro h
    obtain ⟨e, hm, _, heq⟩ := mem_refine_frequencies.mp (mem_of_hasKey h)
    have he : getE vocab w = e := getE_of_mem hnod hm
    rw [he]
    rw [refineSeries] at heq
    exact heq

/-- Witness for C6 at a concrete vocabulary and bin list. -/
theorem refine_frequencies_spec_witness :
    (hasKey (refine_frequencies [("a", { time_series := [8, 9, 20] })] [14, 7]) "a" = true
      ↔ hasKey [("a", ({ time_series := [8, 9, 20] } : Entry))] "a" = true
        ∧ 1 < ((getE [("a", { time_series := [8, 9, 20] })] "a").time_series.filter
            (fun d => decide (([14, 7] : List Int).getLastD 0 ≤ d)
              && decide (d < ([14, 7] : List Int).headD 0))).length)
    ∧ (hasKey (refine_frequencies [("a", { time_series := [8, 9, 20] })] [14, 7]) "a" = true →
        getE (refine_frequencies [("a", { time_series := [8, 9, 20] })] [14, 7]) "a"
          = { getE [("a", { time_series := [8, 9, 20] })] "a" with
              time_series := (getE [("a", { time_series := [8, 9, 20] })] "a").time_series.filter
                (fun d => decide (([14, 7] : List Int).getLastD 0 ≤ d)
                  && decide (d < ([14, 7] : List Int).headD 0)) }) :=
  refine_frequencies_spec [("a", { time_series := [8, 9, 20] })] [14, 7]
    (by decide) (by decide) "a"

theorem getE_combine_frequencies (sqrtFn : ℚ → ℚ) (vocab : Vocab)
    (bins : List Int) (timeseries : List Nat) (w : String)
    (hk : hasKey vocab w = true) :
    getE (combine_frequencies sqrtFn vocab bins timeseries) w
      = combineEntry sqrtFn bins timeseries (getE vocab w) := by
  rw [combine_frequencies, getE_map, if_pos hk]

/-- C8: for a fresh entry (`series_rel` empty, as produced by the pipeline),
`combine_frequencies` gives `series_rel` one value per bin, equal to
`series_abs[i] / per_bin_totals[i] * 1000000`, except that it is 0 whenever
the per-bin total is 0 (the `ZeroDivisionError` branch, total by
construction in this model). -/
theorem combine_frequencies_rel (sqrtFn : ℚ → ℚ) (vocab : Vocab)
    (bins : List Int) (timeseries : List Nat) (w : String)
    (hk : hasKey vocab w = true)
    (hrel : (getE vocab w).series_rel = []) :
    ((getE (combine_frequencies sqrtFn vocab bins timeseries) w).series_rel.length
        = bins.length)
    ∧ (∀ i, i < bins.length →
        (getE (combine_frequencies sqrtFn vocab bins timeseries) w).series_rel.getD i 0
          = if timeseries.getD i 0 = 0 then 0
            else (((getE vocab w).series_abs.getD i 0 : ℚ)
                    / (timeseries.getD i 0 : ℚ)) * 1000000) := by
  rw [getE_combine_frequencies sqrtFn vocab bins timeseries w hk]
  rw [combineEntry]
  simp only [hrel, List.nil_append]
  constructor
  · simp
  · intro i hi
    have hlen : i < ((List.range bins.length).map (fun i =>
        if timeseries.getD i 0 = 0 then (0 : ℚ)
        else (((getE vocab w).series_abs.getD i 0 : ℚ)
                / (timeseries.getD i 0 : ℚ)) * 1000000)).length := by
      simpa using hi
    rw [List.getD_eq_getElem _ _ hlen, List.getElem_map, List.getElem_range]

/-- C9: `combine_frequencies` computes `mean` and `stddev` over exactly the
non-zero subsequence of `series_rel`, each rounded to 3 decimal places, and
`stddev` is the population standard deviation: the square root (abstract
`sqrtFn`) of the squared deviations from the mean divided by the count of
the non-zero values (not count − 1). -/
theorem combine_frequencies_stats (sqrtFn : ℚ → ℚ) (vocab : Vocab)
    (bins : List Int) (timeseries : List Nat) (w : String)
    (hk : hasKey vocab w = true) :
    ((getE (combine_frequencies sqrtFn vocab bins timeseries) w).mean
        = round3
            ((((getE (combine_frequencies sqrtFn vocab bins timeseries) w).series_rel.filter
                (fun f => decide (f ≠ 0))).sum)
              / (((getE (combine_frequencies sqrtFn vocab bins timeseries) w).series_rel.filter
                (fun f => decide (f ≠ 0))).length)))
    ∧ ((getE (combine_frequencies sqrtFn vocab bins timeseries) w).stddev
        = round3 (sqrtFn
            (((((getE (combine_frequencies sqrtFn vocab bins timeseries) w).series_rel.filter
                  (fun f => decide (f ≠ 0))).map
                (fun x => (x - (((getE (combine_frequencies sqrtFn vocab bins timeseries) w).series_rel.filter
                      (fun f => decide (f ≠ 0))).sum)
                    / (((getE (combine_frequencies sqrtFn vocab bins timeseries) w).series_rel.filter
                      (fun f => decide (f ≠ 0))).length) ) ^ 2)).sum)
              / (((getE (combine_frequencies sqrtFn vocab bins timeseries) w).series_rel.filter
                  (fun f => decide (f ≠ 0))).length)))) := by
  rw [getE_combine_frequencies sqrtFn vocab bins timeseries w hk]
  rw [combineEntry]
  exact ⟨rfl, rfl⟩

/-- Witness for C8 at a concrete vocabulary, bins and per-bin totals
(the second total is 0, exercising the guard). -/
theorem combine_frequencies_rel_witness :
    (((getE (combine_frequencies id [("a", { series_abs := [4, 6] })] [14, 7] [8, 0]) "a").series_rel.length
        = ([14, 7] : List Int).length)
    ∧ (∀ i, i < ([14, 7] : List Int).length →
        (getE (combine_frequencies id [("a", { series_abs := [4, 6] })] [14, 7] [8, 0]) "a").series_rel.getD i 0
          = if ([8, 0] : List Nat).getD i 0 = 0 then 0
            else (((getE [("a", ({ series_abs := [4, 6] } : Entry))] "a").series_abs.getD i 0 : ℚ)
                    / (([8, 0] : List Nat).getD i 0 : ℚ)) * 1000000)) :=
  combine_frequencies_rel id [("a", { series_abs := [4, 6] })] [14, 7] [8, 0] "a"
    (by decide) (by rfl)

/-- Witness for C9 at a concrete vocabulary (with `sqrtFn = id`). -/
theorem combine_frequencies_stats_witness :
    ((getE (combine_frequencies id [("b", { series_abs := [4, 6] })] [14, 7] [8, 8]) "b").mean
        = round3
            ((((getE (combine_frequencies id [("b", { series_abs := [4, 6] })] [14, 7] [8, 8]) "b").series_rel.filter
                (fun f => decide (f ≠ 0))).sum)
              / (((getE (combine_frequencies id [("b", { series_abs := [4, 6] })] [14, 7] [8, 8]) "b").series_rel.filter
                (fun f => decide (f ≠ 0))).length)))
    ∧ ((getE (combine_frequencies id [("b", { series_abs := [4, 6] })] [14, 7] [8, 8]) "b").stddev
        = round3 (id
            (((((getE (combine_frequencies id [("b", { series_abs := [4, 6] })] [14, 7] [8, 8]) "b").series_rel.filter
                  (fun f => decide (f ≠ 0))).map
                (fun x => (x - (((getE (combine_frequencies id [("b", { series_abs := [4, 6] })] [14, 7] [8, 8]) "b").series_rel.filter
                      (fun f => decide (f ≠ 0))).sum)
                    / (((getE (combine_frequencies id [("b", { series_abs := [4, 6] })] [14, 7] [8, 8]) "b").series_rel.filter
                      (fun f => decide (f ≠ 0))).length) ) ^ 2)).sum)
              / (((getE (combine_frequencies id [("b", { series_abs := [4, 6] })] [14, 7] [8, 8]) "b").series_rel.filter
                  (fun f => decide (f ≠ 0))).length)))) :=
  combine_frequencies_stats id [("b", { series_abs := [4, 6] })] [14, 7] [8, 8] "b"
    (by decide)

theorem pairwise_filterMap_of_pairwise {α β : Type} (f : α → Option β)
    {R : α → α → Prop} {S : β → β → Prop}
    (hf : ∀ a b, R a b → ∀ x, f a = some x → ∀ y, f b = some y → S x y)
    {l : List α} (h : l.Pairwise R) : (l.filterMap f).Pairwise S := by
  induction l with
  | nil => simp
  | cons a l ih =>
    rw [List.pairwise_cons] at h
    cases hfa : f a with
    | none =>
      rw [List.filterMap_cons, hfa]
      exact ih h.2
    | some x =>
      rw [List.filterMap_cons, hfa]
      refine List.Pairwise.cons (fun y hy => ?_) (ih h.2)
      obtain ⟨b, hb, hfb⟩ := List.mem_filterMap.mp hy
      exact hf a b (h.1 b hb) x hfa y hfb

theorem storeRow_eq_some_iff {freqs : Vocab} {thres_a thres_b : ℚ}
    {w : String} {row : Row} :
    storeRow freqs thres_a thres_b w = some row
      ↔ (getE freqs w).stddev ≠ 0
        ∧ ((getE freqs w).mean > thres_a
            ∨ ((getE freqs w).mean > thres_b
                ∧ (getE freqs w).stddev < (getE freqs w).mean / 2))
        ∧ row = Row.data w (getE freqs w).total (getE freqs w).mean
            (getE freqs w).stddev (getE freqs w).series_rel := by
  rw [storeRow]
  by_cases h1 : (getE freqs w).stddev = 0
  · simp [h1]
  · by_cases h2 : (getE freqs w).mean > thres_a
        ∨ ((getE freqs w).mean > thres_b
            ∧ (getE freqs w).stddev < (getE freqs w).mean / 2)
    · simp [h1, h2, eq_comm]
    · simp [h1, h2]

theorem storeRow_word {freqs : Vocab} {thres_a thres_b : ℚ}
    {u : String} {row : Row} (h : storeRow freqs thres_a thres_b u = some row) :
    rowWord row = u := by
  obtain ⟨_, _, heq⟩ := storeRow_eq_some_iff.mp h
  rw [heq]
  rfl

theorem mem_keys_of_hasKey {v : Vocab} {w : String} (h : hasKey v w = true) :
    w ∈ keys v := by
  rw [hasKey_keys, List.any_eq_true] at h
  obtain ⟨x, hx, hb⟩ := h
  rwa [← (by simpa using hb : x = w)]

/-- C7: the rows written by `store_freqlist` are a header followed by data
rows in alphabetical order of the word, and the data row of a word is
present exactly when the word is in the vocabulary, its stddev is non-zero
and `mean > thres_a` or (`mean > thres_b` and `stddev < mean/2`). -/
theorem store_freqlist_spec (freqs : Vocab) (thres_a thres_b : ℚ) (w : String) :
    ((store_freqlist freqs thres_a thres_b).head? = some Row.header)
    ∧ ((store_freqlist freqs thres_a thres_b).tail.Pairwise
        (fun r1 r2 => rowWord r1 ≤ rowWord r2))
    ∧ (Row.data w (getE freqs w).total (getE freqs w).mean (getE freqs w).stddev
          (getE freqs w).series_rel ∈ store_freqlist freqs thres_a thres_b
        ↔ hasKey freqs w = true
          ∧ (getE freqs w).stddev ≠ 0
          ∧ ((getE freqs w).mean > thres_a
              ∨ ((getE freqs w).mean > thres_b
                  ∧ (getE freqs w).stddev < (getE freqs w).mean / 2))) := by
  refine ⟨rfl, ?_, ?_⟩
  · rw [store_freqlist, List.tail_cons]
    exact pairwise_filterMap_of_pairwise _
      (fun u1 u2 hle x hx y hy => by
        rw [storeRow_word hx, storeRow_word hy]; exact hle)
      (List.sorted_insertionSort _ _)
  · rw [store_freqlist]
    constructor
    · intro h
      rcases List.mem_cons.mp h with hh | hm
      · exact absurd hh (by simp)
      · obtain ⟨u, hu, hsome⟩ := List.mem_filterMap.mp hm
        obtain ⟨h1, h2, heq⟩ := storeRow_eq_some_iff.mp hsome
        injection heq with hw _ _ _ _
        subst hw
        refine ⟨?_, h1, h2⟩
        rw [hasKey_keys, List.any_eq_true]
        exact ⟨w, (List.mem_insertionSort _).mp hu, by simp⟩
    · rintro ⟨hk, h1, h2⟩
      apply List.mem_cons_of_mem
      apply List.mem_filterMap.mpr
      exact ⟨w, (List.mem_insertionSort _).mpr (mem_keys_of_hasKey hk),
        storeRow_eq_some_iff.mpr ⟨h1, h2, rfl⟩⟩

theorem toLower_eq_hyphen {c : Char} (h : Char.toLower c = '-') : c = '-' := by
  by_cases hc : c.toNat ≥ 65 ∧ c.toNat ≤ 90
  · exfalso
    have hc2 : Char.ofNat c.toNat = c := Char.ofNat_toNat c
    obtain ⟨h1, h2⟩ := hc
    rw [← hc2] at h
    generalize hg : c.toNat = n at h1 h2 h
    interval_cases n <;> exact absurd h (by decide)
  · rw [Char.toLower] at h
    rw [if_neg hc] at h
    exact h

theorem toUpper_eq_hyphen {c : Char} (h : Char.toUpper c = '-') : c = '-' := by
  by_cases hc : c.toNat ≥ 97 ∧ c.toNat ≤ 122
  · exfalso
    have hc2 : Char.ofNat c.toNat = c := Char.ofNat_toNat c
    obtain ⟨h1, h2⟩ := hc
    rw [← hc2] at h
    generalize hg : c.toNat = n at h1 h2 h
    interval_cases n <;> exact absurd h (by decide)
  · rw [Char.toUpper] at h
    rw [if_neg hc] at h
    exact h

theorem dehyphenCandidate_no_hyphen (u : String) :
    '-' ∉ (dehyphenCandidate u).data := by
  have hbase : ∀ x ∈ (u.data.filter (fun c => c ≠ '-')).map Char.toLower,
      x ≠ '-' := by
    intro x hx
    obtain ⟨c, hc, rfl⟩ := List.mem_map.mp hx
    have hcne : c ≠ '-' := by simpa using (List.mem_filter.mp hc).2
    exact fun hl => hcne (toLower_eq_hyphen hl)
  rw [dehyphenCandidate]
  by_cases hup : (u.data.headD ' ').isUpper = true
  · rw [if_pos hup]
    cases hb : (u.data.filter (fun c => c ≠ '-')).map Char.toLower with
    | nil => simp
    | cons c cs =>
      intro hmem
      rcases List.mem_cons.mp hmem with heq | hm
      · have : c ≠ '-' := hbase c (by rw [hb]; exact List.mem_cons_self _ _)
        exact this (toUpper_eq_hyphen heq.symm)
      · exact hbase '-' (by rw [hb]; exact List.mem_cons_of_mem _ hm) rfl
  · rw [if_neg hup]
    exact fun hmem => hbase '-' hmem rfl

theorem dehyphenCandidate_ne_hyphenated {u x : String}
    (hx : x.data.contains '-' = true) : dehyphenCandidate u ≠ x := by
  intro hc
  apply dehyphenCandidate_no_hyphen u
  rw [hc]
  simpa using hx

theorem keys_prune_of_hasKey (v : Vocab) (first second : String)
    (h : hasKey v second = true) :
    keys (prune_vocab v first second) = keys v := by
  simp only [prune_vocab, h, if_true]
  exact keys_setE_of_hasKey _ _ _ h

theorem getE_prune_self (v : Vocab) (first second : String)
    (h : hasKey v second = true) :
    getE (prune_vocab v first second) second
      = mergeE (getE v second) (getE v first) := by
  simp only [prune_vocab, h, if_true]
  exact getE_setE_self _ _ _

theorem getE_prune_ne (v : Vocab) (first second x : String)
    (h : hasKey v second = true) (hx : x ≠ second) :
    getE (prune_vocab v first second) x = getE v x := by
  simp only [prune_vocab, h, if_true]
  exact getE_setE_ne _ _ _ _ hx

theorem hasKey_dehyphenStep (p : Vocab × List String) (w x : String) :
    hasKey (dehyphenStep p w).1 x = hasKey p.1 x := by
  rw [dehyphenStep]
  by_cases h : hasKey p.1 (dehyphenCandidate w) = true
  · simp only [h, if_true]
    exact hasKey_of_keys_eq (keys_prune_of_hasKey _ _ _ h) x
  · simp [h]

theorem keys_foldl_dehyphenStep (H : List String) (p : Vocab × List String) :
    keys (H.foldl dehyphenStep p).1 = keys p.1 := by
  induction H generalizing p with
  | nil => rfl
  | cons w H ih =>
    rw [List.foldl_cons, ih, dehyphenStep]
    by_cases h : hasKey p.1 (dehyphenCandidate w) = true
    · simp only [h, if_true]
      exact keys_prune_of_hasKey _ _ _ h
    · simp [h]

theorem snd_foldl_dehyphenStep (H : List String) (p : Vocab × List String) :
    (H.foldl dehyphenStep p).2
      = p.2 ++ H.filter (fun w => hasKey p.1 (dehyphenCandidate w)) := by
  induction H generalizing p with
  | nil => simp
  | cons w H ih =>
    rw [List.foldl_cons, ih, List.filter_cons]
    have hcongr : H.filter (fun u => hasKey (dehyphenStep p w).1 (dehyphenCandidate u))
        = H.filter (fun u => hasKey p.1 (dehyphenCandidate u)) :=
      List.filter_congr (fun u _ => hasKey_dehyphenStep p w (dehyphenCandidate u))
    rw [hcongr]
    by_cases h : hasKey p.1 (dehyphenCandidate w) = true
    · rw [if_pos h]
      have hsnd : (dehyphenStep p w).2 = p.2 ++ [w] := by
        simp only [dehyphenStep, h, if_true]
      rw [hsnd, List.append_assoc]
      rfl
    · rw [if_neg (by simpa using h)]
      have hsnd : (dehyphenStep p w).2 = p.2 := by
        simp [dehyphenStep, h]
      rw [hsnd]

theorem getE_foldl_dehyphenStep_ne (H : List String) (p : Vocab × List String)
    (x : String) (hx : ∀ w ∈ H, dehyphenCandidate w ≠ x) :
    getE (H.foldl dehyphenStep p).1 x = getE p.1 x := by
  induction H generalizing p with
  | nil => rfl
  | cons w H ih =>
    rw [List.foldl_cons, ih _ (fun u hu => hx u (List.mem_cons_of_mem _ hu)),
      dehyphenStep]
    by_cases h : hasKey p.1 (dehyphenCandidate w) = true
    · simp only [h, if_true]
      exact getE_prune_ne _ _ _ _ h
        (fun hc => hx w (List.mem_cons_self _ _) hc.symm)
    · simp [h]

theorem getE_foldl_dehyphenStep_cand (H : List String)
    (p : Vocab × List String) (vocab : Vocab) (c : String)
    (hH : ∀ u ∈ H, getE p.1 u = getE vocab u)
    (hsep : ∀ u ∈ H, ∀ x ∈ H, dehyphenCandidate u ≠ x) :
    getE (H.foldl dehyphenStep p).1 c
      = (H.filter (fun u => dehyphenCandidate u == c
            && hasKey p.1 (dehyphenCandidate u))).foldl
          (fun e u => mergeE e (getE vocab u)) (getE p.1 c) := by
  induction H generalizing p with
  | nil => rfl
  | cons w H ih =>
    have hsep' : ∀ u ∈ H, ∀ x ∈ H, dehyphenCandidate u ≠ x :=
      fun u hu x hx => hsep u (List.mem_cons_of_mem _ hu) x (List.mem_cons_of_mem _ hx)
    rw [List.foldl_cons, List.filter_cons]
    by_cases hk : hasKey p.1 (dehyphenCandidate w) = true
    · have hfst : (dehyphenStep p w).1
          = prune_vocab p.1 w (dehyphenCandidate w) := by
        simp only [dehyphenStep, hk, if_true]
      have hH' : ∀ u ∈ H, getE (dehyphenStep p w).1 u = getE vocab u := by
        intro u hu
        rw [hfst, getE_prune_ne _ _ _ _ hk
          (fun hc => hsep w (List.mem_cons_self _ _) u (List.mem_cons_of_mem _ hu) hc.symm)]
        exact hH u (List.mem_cons_of_mem _ hu)
      rw [ih (dehyphenStep p w) hH' hsep',
        List.filter_congr
          (fun u _ => by rw [hasKey_dehyphenStep] :
            ∀ u ∈ H, (dehyphenCandidate u == c
                && hasKey (dehyphenStep p w).1 (dehyphenCandidate u))
              = (dehyphenCandidate u == c && hasKey p.1 (dehyphenCandidate u)))]
      by_cases hc : dehyphenCandidate w = c
      · have hcond : (dehyphenCandidate w == c
            && hasKey p.1 (dehyphenCandidate w)) = true := by
          rw [hc] at hk ⊢
          simp [hk]
        rw [if_pos hcond, List.foldl_cons]
        congr 1
        rw [hfst, ← hc, getE_prune_self _ _ _ hk,
          hH w (List.mem_cons_self _ _)]
      · rw [if_neg (by simp [hc])]
        congr 1
        rw [hfst, getE_prune_ne _ _ _ _ hk (fun h' => hc h'.symm)]
    · have hstep : dehyphenStep p w = p := by
        simp [dehyphenStep, hk]
      rw [if_neg (by simp [hk]), hstep]
      exact ih p (fun u hu => hH u (List.mem_cons_of_mem _ hu)) hsep'

/-- C10: for a hyphen-containing word-form `w` of the vocabulary, if its
dehyphenated candidate is not a key, `dehyphen_vocab` leaves the entry of
`w` completely unchanged; if it is a key, the hyphenated key is removed and
the candidate's entry is the original one with every hyphenated word of the
same candidate merged in (`mergeE`: time series concatenated, source counts
summed, headings OR-ed). -/
theorem dehyphen_vocab_spec (vocab : Vocab) (w : String)
    (hw : hasKey vocab w = true) (hhyp : w.data.contains '-' = true) :
    (hasKey vocab (dehyphenCandidate w) = false →
        hasKey (dehyphen_vocab vocab) w = true
        ∧ getE (dehyphen_vocab vocab) w = getE vocab w)
    ∧ (hasKey vocab (dehyphenCandidate w) = true →
        hasKey (dehyphen_vocab vocab) w = false
        ∧ getE (dehyphen_vocab vocab) (dehyphenCandidate w)
            = ((keys vocab).filter (fun u => u.data.contains '-'
                  && (dehyphenCandidate u == dehyphenCandidate w))).foldl
                (fun e u => mergeE e (getE vocab u))
                (getE vocab (dehyphenCandidate w))) := by
  have hdv : dehyphen_vocab vocab
      = ((((keys vocab).filter (fun u => u.data.contains '-')).foldl
            dehyphenStep (vocab, [])).2).foldl delE
          ((((keys vocab).filter (fun u => u.data.contains '-')).foldl
            dehyphenStep (vocab, [])).1) := rfl
  have hdels : ((((keys vocab).filter (fun u => u.data.contains '-')).foldl
        dehyphenStep (vocab, [])).2)
      = ((keys vocab).filter (fun u => u.data.contains '-')).filter
          (fun u => hasKey vocab (dehyphenCandidate u)) := by
    rw [snd_foldl_dehyphenStep]
    simp
  have hkeys : ∀ x, hasKey ((((keys vocab).filter
        (fun u => u.data.contains '-')).foldl dehyphenStep (vocab, [])).1) x
      = hasKey vocab x :=
    fun x => hasKey_of_keys_eq
      (keys_foldl_dehyphenStep ((keys vocab).filter (fun u => u.data.contains '-'))
        (vocab, [])) x
  have hsep : ∀ u ∈ (keys vocab).filter (fun x => x.data.contains '-'),
      ∀ x ∈ (keys vocab).filter (fun x => x.data.contains '-'),
        dehyphenCandidate u ≠ x :=
    fun u _ x hx => dehyphenCandidate_ne_hyphenated (List.mem_filter.mp hx).2
  constructor
  · intro hcand
    have hnotin : w ∉ ((((keys vocab).filter (fun u => u.data.contains '-')).foldl
        dehyphenStep (vocab, [])).2) := by
      rw [hdels]
      intro hmem
      rw [(List.mem_filter.mp hmem).2] at hcand
      exact Bool.true_eq_false.mp hcand
    constructor
    · rw [hdv, hasKey_foldl_delE, if_neg hnotin, hkeys]
      exact hw
    · rw [hdv, getE_foldl_delE _ _ _ hnotin]
      exact getE_foldl_dehyphenStep_ne _ _ _
        (fun u _ => dehyphenCandidate_ne_hyphenated hhyp)
  · intro hcand
    have hwH : w ∈ (keys vocab).filter (fun u => u.data.contains '-') :=
      List.mem_filter.mpr ⟨mem_keys_of_hasKey hw, hhyp⟩
    have hin : w ∈ ((((keys vocab).filter (fun u => u.data.contains '-')).foldl
        dehyphenStep (vocab, [])).2) := by
      rw [hdels]
      exact List.mem_filter.mpr ⟨hwH, hcand⟩
    have hcnotin : dehyphenCandidate w
        ∉ ((((keys vocab).filter (fun u => u.data.contains '-')).foldl
            dehyphenStep (vocab, [])).2) := by
      rw [hdels]
      intro hmem
      exact dehyphenCandidate_no_hyphen w
        (by simpa using (List.mem_filter.mp (List.mem_filter.mp hmem).1).2)
    constructor
    · rw [hdv, hasKey_foldl_delE, if_pos hin]
    · rw [hdv, getE_foldl_delE _ _ _ hcnotin,
        getE_foldl_dehyphenStep_cand _ _ vocab _ (fun u _ => rfl) hsep]
      have h1 : ((keys vocab).filter (fun u => u.data.contains '-')).filter
            (fun u => dehyphenCandidate u == dehyphenCandidate w
              && hasKey vocab (dehyphenCandidate u))
          = ((keys vocab).filter (fun u => u.data.contains '-')).filter
            (fun u => dehyphenCandidate u == dehyphenCandidate w) := by
        apply List.filter_congr
        intro u _
        cases hbe : dehyphenCandidate u == dehyphenCandidate w with
        | true =>
          have he : dehyphenCandidate u = dehyphenCandidate w := by simpa using hbe
          simp [he, hcand]
        | false => simp
      have h2 : ((keys vocab).filter (fun u => u.data.contains '-')).filter
            (fun u => dehyphenCandidate u == dehyphenCandidate w)
          = (keys vocab).filter (fun u => u.data.contains '-'
              && (dehyphenCandidate u == dehyphenCandidate w)) := by
        rw [List.filter_filter]
        exact List.filter_congr (fun u _ => Bool.and_comm _ _)
      rw [h1, h2]

/-- Witness for C10: `"x-y"` has no dehyphenated counterpart and is left
untouched; `"co-operate"` merges into `"cooperate"` and is removed. -/
theorem dehyphen_vocab_spec_witness :
    (hasKey (dehyphen_vocab [("x-y", ({} : Entry))]) "x-y" = true
      ∧ getE (dehyphen_vocab [("x-y", ({} : Entry))]) "x-y"
          = getE [("x-y", ({} : Entry))] "x-y")
    ∧ (hasKey (dehyphen_vocab
          [("co-operate", ({} : Entry)), ("cooperate", ({} : Entry))]) "co-operate" = false
      ∧ getE (dehyphen_vocab
            [("co-operate", ({} : Entry)), ("cooperate", ({} : Entry))])
            (dehyphenCandidate "co-operate")
          = ((keys [("co-operate", ({} : Entry)), ("cooperate", ({} : Entry))]).filter
                (fun u => u.data.contains '-'
                  && (dehyphenCandidate u == dehyphenCandidate "co-operate"))).foldl
              (fun e u => mergeE e
                (getE [("co-operate", ({} : Entry)), ("cooperate", ({} : Entry))] u))
              (getE [("co-operate", ({} : Entry)), ("cooperate", ({} : Entry))]
                (dehyphenCandidate "co-operate"))) :=
  ⟨(dehyphen_vocab_spec [("x-y", ({} : Entry))] "x-y" (by decide) (by decide)).1
      (by decide),
   (dehyphen_vocab_spec [("co-operate", ({} : Entry)), ("cooperate", ({} : Entry))]
      "co-operate" (by decide) (by decide)).2 (by decide)⟩

end Shoten
